import Mathlib

/-!
Verification of the hybrid code-aware pre-tokenization pipeline described by
the repository: a BlockDetector that finds fenced code regions, a
LanguageLexer for recognized languages, a ByteLevelSplitter for everything
else, and a PreTokenizerPipeline that chains them while preserving global
byte offsets.  The repository ships only driver scripts
(2test_corrected.py, test.py, test_tokenizer.py, incorrect_test.py)
exercising the CodeLexer / ByteLevel / Sequence pre-tokenizers, so the
pipeline core itself is modelled from the specification; each such
definition carries a doc comment that says so.  Texts are modelled as lists
of characters, one list element per byte-equivalent unit.
-/

/-- The backquote character used by the fence marker (three backquotes). -/
def backquote : Char := Char.ofNat 96

/-- Modelled from the spec: the synthetic leading-space marker that
ByteLevelSplitter may prepend when addPrefixSpace is set (the byte-level
space symbol of the external vocabulary). -/
def spaceMarker : Char := Char.ofNat 288

/-- Modelled from the spec: a Span is an immutable byte-offset-tagged unit
with a start offset, a stop offset and the covered text.  For spans the
splitter has not normalized, stop equals start plus the text length. -/
structure Span where
  start : Nat
  stop : Nat
  text : List Char
deriving DecidableEq, Repr

/-- Concatenation of the texts of a span sequence. -/
def concatText (spans : List Span) : List Char := (spans.map Span.text).flatten

/-- Decidable tiling check for spans: the sequence starts at offset n, each
span starts where the previous one stopped, and the last span stops at m.
This single predicate expresses sorted-by-start, contiguous (no gaps) and
non-overlapping over the half-open range from n to m. -/
def chainedTo : Nat → Nat → List Span → Bool
  | n, m, [] => n == m
  | n, m, s :: ss => s.start == n && chainedTo s.stop m ss

/-- Modelled from the spec: the pure local-to-global offset translation,
adding the enclosing block start offset to a stage-local span. -/
def translateSpan (s : Span) (off : Nat) : Span :=
  ⟨s.start + off, s.stop + off, s.text⟩

/-- Split a text into its lines; every line except possibly the last ends
with a newline, and the lines concatenate back to the text. -/
def lines : List Char → List (List Char)
  | [] => []
  | c :: cs =>
    if c = '\n' then ['\n'] :: lines cs
    else
      match lines cs with
      | [] => [[c]]
      | l :: ls => (c :: l) :: ls

/-- Modelled from the spec: a fence line is a line that starts with the
fixed three-backquote delimiter sequence. -/
def isFenceLine (l : List Char) : Bool :=
  l.take 3 == [backquote, backquote, backquote]

/-- Modelled from the spec: the optional language tag word immediately
following the fence marker on the same line; an empty tag defaults to the
identifier unknown. -/
def tagOf (l : List Char) : List Char :=
  let t := (l.drop 3).takeWhile (fun c => !c.isWhitespace)
  if t = [] then "unknown".data else t

/-- Modelled from the spec: a block produced by BlockDetector, tagged with
its global start offset, whether it is a fenced code body, the captured
language tag, and its text. -/
structure Block where
  start : Nat
  isCode : Bool
  lang : Option (List Char)
  text : List Char
deriving DecidableEq, Repr

/-- Find the first fence line in a list of lines: returns the lines before
it, the fence line itself and the lines after it, or none when no line is
a fence line. -/
def splitAtClose : List (List Char) → Option (List (List Char) × List Char × List (List Char))
  | [] => none
  | l :: ls =>
    if isFenceLine l then some ([], l, ls)
    else
      match splitAtClose ls with
      | none => none
      | some (b, c, r) => some (l :: b, c, r)

theorem splitAtClose_eq : ∀ (ls b : List (List Char)) (c : List Char) (r : List (List Char)),
    splitAtClose ls = some (b, c, r) → ls = b ++ c :: r := by
  intro ls
  induction ls with
  | nil => intro b c r h; simp [splitAtClose] at h
  | cons l ls ih =>
    intro b c r h
    simp only [splitAtClose] at h
    by_cases hf : isFenceLine l
    · simp [hf] at h
      obtain ⟨rfl, rfl, rfl⟩ := h
      simp
    · simp [hf] at h
      cases hs : splitAtClose ls with
      | none => rw [hs] at h; simp at h
      | some v =>
        obtain ⟨b', c', r'⟩ := v
        rw [hs] at h
        simp at h
        obtain ⟨rfl, rfl, rfl⟩ := h
        simp [ih _ _ _ hs]

theorem splitAtClose_length {ls b : List (List Char)} {c : List Char} {r : List (List Char)}
    (h : splitAtClose ls = some (b, c, r)) : r.length < ls.length := by
  have := splitAtClose_eq ls b c r h
  subst this
  simp
  omega

theorem splitAtClose_none : ∀ (ls : List (List Char)),
    (∀ l ∈ ls, isFenceLine l = false) → splitAtClose ls = none := by
  intro ls
  induction ls with
  | nil => intro _; rfl
  | cons l ls ih =>
    intro h
    have hl : isFenceLine l = false := h l (by simp)
    simp only [splitAtClose, hl, Bool.false_eq_true, if_false]
    rw [ih (fun x hx => h x (by simp [hx]))]

/-- Modelled from the spec: BlockDetector scanning, line by line.  A fence
line opens a candidate block; if a closing fence line follows, the open
fence line and the closing fence line become plain-text blocks around a
code block holding the body and the captured language tag; if no closing
fence exists before end of input the candidate degrades to a single
plain-text block from the original marker to the end (nothing is lost, no
failure). Other lines become plain-text blocks. -/
def detectLines : Nat → List (List Char) → List Block
  | _, [] => []
  | off, l :: ls =>
    if isFenceLine l then
      match h : splitAtClose ls with
      | none => [⟨off, false, none, (l :: ls).flatten⟩]
      | some (body, close, rest) =>
        ⟨off, false, none, l⟩ ::
        ⟨off + l.length, true, some (tagOf l), body.flatten⟩ ::
        ⟨off + l.length + body.flatten.length, false, none, close⟩ ::
        detectLines (off + l.length + body.flatten.length + close.length) rest
    else ⟨off, false, none, l⟩ :: detectLines (off + l.length) ls
termination_by _ ls => ls.length
decreasing_by
  · exact Nat.lt_succ_of_lt (splitAtClose_length h)
  · simp

/-- Modelled from the spec: detect maps a raw text to the ordered blocks
covering the whole input. -/
def detect (text : List Char) : List Block := detectLines 0 (lines text)

theorem lines_flatten (s : List Char) : (lines s).flatten = s := by
  induction s with
  | nil => rfl
  | cons c cs ih =>
    by_cases h : c = '\n'
    · simp [lines, h, ih]
    · simp only [lines, if_neg h]
      cases hl : lines cs with
      | nil => simp [hl] at ih; simp [ih]
      | cons l ls => rw [hl] at ih; simpa using ih

/-- Concatenation of the texts of a block sequence. -/
def blockConcat (bs : List Block) : List Char := (bs.map Block.text).flatten

/-- Decidable tiling check for blocks, in the same style as chainedTo:
consecutive blocks from offset n to offset m, each block covering exactly
the width of its text. -/
def blocksChainedTo : Nat → Nat → List Block → Bool
  | n, m, [] => n == m
  | n, m, b :: bs => b.start == n && blocksChainedTo (n + b.text.length) m bs

theorem detectLines_concat : ∀ (ls : List (List Char)) (off : Nat),
    blockConcat (detectLines off ls) = ls.flatten
  | [], off => by simp [detectLines, blockConcat]
  | l :: ls, off => by
    rw [detectLines]
    by_cases hf : isFenceLine l
    · simp only [hf, if_true]
      cases hs : splitAtClose ls with
      | none => simp [blockConcat]
      | some v =>
        obtain ⟨body, close, rest⟩ := v
        have ih := detectLines_concat rest (off + l.length + body.flatten.length + close.length)
        have heq := splitAtClose_eq ls body close rest hs
        subst heq
        simp only [blockConcat, List.map_cons, List.flatten_cons] at ih ⊢
        rw [ih]
        simp
    · simp only [hf, if_false, Bool.false_eq_true]
      have ih := detectLines_concat ls (off + l.length)
      simp only [blockConcat, List.map_cons, List.flatten_cons] at ih ⊢
      rw [ih]
termination_by ls _ => ls.length
decreasing_by
  · exact Nat.lt_succ_of_lt (splitAtClose_length hs)
  · simp

theorem detectLines_chained : ∀ (ls : List (List Char)) (off : Nat),
    blocksChainedTo off (off + ls.flatten.length) (detectLines off ls) = true
  | [], off => by simp [detectLines, blocksChainedTo]
  | l :: ls, off => by
    rw [detectLines]
    by_cases hf : isFenceLine l
    · simp only [hf, if_true]
      cases hs : splitAtClose ls with
      | none => simp [blocksChainedTo]
      | some v =>
        obtain ⟨body, close, rest⟩ := v
        have ih := detectLines_chained rest (off + l.length + body.flatten.length + close.length)
        have heq := splitAtClose_eq ls body close rest hs
        subst heq
        simp only [blocksChainedTo, beq_self_eq_true, Bool.true_and]
        have harith : off + (l :: (body ++ close :: rest)).flatten.length =
            off + l.length + body.flatten.length + close.length + rest.flatten.length := by
          simp
          omega
        rw [harith]
        exact ih
    · simp only [hf, if_false, Bool.false_eq_true]
      have ih := detectLines_chained ls (off + l.length)
      simp only [blocksChainedTo, beq_self_eq_true, Bool.true_and]
      have harith : off + (l :: ls).flatten.length = off + l.length + ls.flatten.length := by
        simp
        omega
      rw [harith]
      exact ih
termination_by ls _ => ls.length
decreasing_by
  · exact Nat.lt_succ_of_lt (splitAtClose_length hs)
  · simp

theorem detect_concat (text : List Char) : blockConcat (detect text) = text := by
  rw [detect, detectLines_concat, lines_flatten]

theorem detect_chained (text : List Char) :
    blocksChainedTo 0 text.length (detect text) = true := by
  have h := detectLines_chained (lines text) 0
  rw [lines_flatten] at h
  simpa using h

/-- Modelled from the spec: the byte classes the raw-byte splitting mode of
ByteLevelSplitter distinguishes (letter, number, whitespace, punctuation
and everything else). -/
inductive ByteClass where
  | letter : ByteClass
  | digit : ByteClass
  | space : ByteClass
  | other : ByteClass
deriving DecidableEq, Repr

/-- Byte class of one character. -/
def classOf (c : Char) : ByteClass :=
  if c.isAlpha then ByteClass.letter
  else if c.isDigit then ByteClass.digit
  else if c.isWhitespace then ByteClass.space
  else ByteClass.other

/-- Modelled from the spec: raw-byte splitting, one run per maximal run of
characters of the same byte class. -/
def splitRuns : List Char → List (List Char)
  | [] => []
  | c :: cs =>
    match splitRuns cs with
    | [] => [[c]]
    | [] :: rs => [c] :: [] :: rs
    | (d :: r) :: rs =>
      if classOf c = classOf d then (c :: d :: r) :: rs
      else [c] :: (d :: r) :: rs

theorem splitRuns_flatten (t : List Char) : (splitRuns t).flatten = t := by
  induction t with
  | nil => rfl
  | cons c cs ih =>
    simp only [splitRuns]
    cases hs : splitRuns cs with
    | nil => rw [hs] at ih; simp at ih; simp [ih]
    | cons r rs =>
      rw [hs] at ih
      cases r with
      | nil => simpa using ih
      | cons d r =>
        by_cases hc : classOf c = classOf d
        · simp only [hc, if_true]
          simpa using ih
        · simp only [hc, if_false]
          simpa using ih

/-- Spans laid out consecutively from a list of runs, starting at a given
offset; each span covers exactly its text. -/
def spansOfRuns : Nat → List (List Char) → List Span
  | _, [] => []
  | off, r :: rs => ⟨off, off + r.length, r⟩ :: spansOfRuns (off + r.length) rs

theorem spansOfRuns_concat (rs : List (List Char)) : ∀ (off : Nat),
    concatText (spansOfRuns off rs) = rs.flatten := by
  induction rs with
  | nil => intro off; rfl
  | cons r rs ih =>
    intro off
    simp only [spansOfRuns, concatText, List.map_cons, List.flatten_cons] at ih ⊢
    rw [ih]

theorem spansOfRuns_chained (rs : List (List Char)) : ∀ (off : Nat),
    chainedTo off (off + rs.flatten.length) (spansOfRuns off rs) = true := by
  induction rs with
  | nil => intro off; simp [spansOfRuns, chainedTo]
  | cons r rs ih =>
    intro off
    simp only [spansOfRuns, chainedTo, beq_self_eq_true, Bool.true_and]
    have harith : off + (r :: rs).flatten.length = off + r.length + rs.flatten.length := by
      simp
      omega
    rw [harith]
    exact ih (off + r.length)

theorem chainedTo_append {xs ys : List Span} : ∀ {n m k : Nat},
    chainedTo n m xs = true → chainedTo m k ys = true → chainedTo n k (xs ++ ys) = true := by
  induction xs with
  | nil =>
    intro n m k hx hy
    simp only [chainedTo, beq_iff_eq] at hx
    subst hx
    simpa using hy
  | cons s ss ih =>
    intro n m k hx hy
    simp only [chainedTo, Bool.and_eq_true] at hx ⊢
    exact ⟨hx.1, ih hx.2 hy⟩

theorem spansOfRuns_map_translate (rs : List (List Char)) : ∀ (n off : Nat),
    (spansOfRuns n rs).map (fun s => translateSpan s off) = spansOfRuns (n + off) rs := by
  induction rs with
  | nil => intro n off; rfl
  | cons r rs ih =>
    intro n off
    have h2 := ih (n + r.length) off
    simp only [translateSpan] at h2
    simp only [spansOfRuns, List.map_cons, translateSpan]
    rw [h2]
    have harith : n + r.length + off = n + off + r.length := by omega
    rw [harith]

/-- Modelled from the spec: the immutable per-pipeline configuration with
the recognized language set and the byte-level flags. -/
structure PipelineConfig where
  languages : List (List Char)
  addPrefixSpace : Bool
  trimOffsets : Bool
  useRegexSplit : Bool
deriving DecidableEq, Repr

/-- True when the text begins with a space-equivalent character. -/
def startsWithSpace : List Char → Bool
  | [] => false
  | c :: _ => c.isWhitespace

/-- Modelled from the spec: ByteLevelSplitter on a local text (offsets
starting at zero).  The text is split into maximal same-class runs; when
addPrefixSpace is set and the text does not already start with a
space-equivalent character, the synthetic marker is prepended to the text
of the first span while the offsets of that span are left untouched.  The
trimOffsets flag concerns spans whose text is purely the synthetic marker;
this construction never emits such a span (the marker is only ever
prepended to a nonempty first run), so the flag does not alter any span. -/
def byteLevelLocal (cfg : PipelineConfig) (text : List Char) : List Span :=
  let ss := spansOfRuns 0 (splitRuns text)
  if cfg.addPrefixSpace && !startsWithSpace text then
    match ss with
    | [] => []
    | s :: rest => ⟨s.start, s.stop, spaceMarker :: s.text⟩ :: rest
  else ss

/-- Modelled from the spec: ByteLevelSplitter on a global span, local
splitting then translation by the real start of the span. -/
def byteLevelSplit (cfg : PipelineConfig) (sp : Span) : List Span :=
  (byteLevelLocal cfg sp.text).map (fun s => translateSpan s sp.start)

theorem byteLevelLocal_noprefix {cfg : PipelineConfig} (h : cfg.addPrefixSpace = false)
    (text : List Char) : byteLevelLocal cfg text = spansOfRuns 0 (splitRuns text) := by
  simp [byteLevelLocal, h]

/-- Identifier start characters of the modelled language rules. -/
def isIdentStart (c : Char) : Bool := c.isAlpha || c = '_'

/-- Identifier continuation characters of the modelled language rules. -/
def isIdentChar (c : Char) : Bool := c.isAlpha || c.isDigit || c = '_'

/-- Modelled from the spec: the fixed operator precedence table of the
python language rules, ordered longest first so that a scan of the table
realizes longest-match-first with ties broken by declaration order. -/
def opTable : List (List Char) :=
  ["**=", "//=", "<<=", ">>=", "==", "!=", "<=", ">=", "->", "**", "//",
   "<<", ">>", "+=", "-=", "*=", "/=", "%=", "&=", "|=", "^=", ":="].map String.data

/-- First operator of the table that is a prefix of the text. -/
def matchOp : List (List Char) → List Char → Option (List Char)
  | [], _ => none
  | op :: ops, t => if op.isPrefixOf t then some op else matchOp ops t

theorem matchOp_mem : ∀ (ops : List (List Char)) (t op : List Char),
    matchOp ops t = some op → op ∈ ops ∧ op.isPrefixOf t = true := by
  intro ops
  induction ops with
  | nil => intro t op h; simp [matchOp] at h
  | cons o os ih =>
    intro t op h
    simp only [matchOp] at h
    by_cases hp : o.isPrefixOf t
    · simp [hp] at h
      subst h
      exact ⟨by simp, hp⟩
    · simp [hp] at h
      obtain ⟨hm, hpre⟩ := ih t op h
      exact ⟨by simp [hm], hpre⟩

/-- True when the text begins with a decimal digit. -/
def startsWithDigit : List Char → Bool
  | [] => false
  | c :: _ => c.isDigit

/-- Modelled from the spec: extraction of the next syntactic token of the
python language rules, together with the remaining text.  Maximal
whitespace runs, identifier runs and numeric literal runs (digits with an
optional decimal point taken by longest match) are taken whole; otherwise
the longest operator of the fixed precedence table is taken, and any other
character stands alone. -/
def nextToken : List Char → List Char × List Char
  | [] => ([], [])
  | c :: cs =>
    if c.isWhitespace then
      ((c :: cs).takeWhile Char.isWhitespace, (c :: cs).dropWhile Char.isWhitespace)
    else if isIdentStart c then
      ((c :: cs).takeWhile isIdentChar, (c :: cs).dropWhile isIdentChar)
    else if c.isDigit then
      match (c :: cs).dropWhile Char.isDigit with
      | '.' :: r1 =>
        if startsWithDigit r1 then
          ((c :: cs).takeWhile Char.isDigit ++ '.' :: r1.takeWhile Char.isDigit,
           r1.dropWhile Char.isDigit)
        else ((c :: cs).takeWhile Char.isDigit, (c :: cs).dropWhile Char.isDigit)
      | _ => ((c :: cs).takeWhile Char.isDigit, (c :: cs).dropWhile Char.isDigit)
    else
      match matchOp opTable (c :: cs) with
      | some op => (op, (c :: cs).drop op.length)
      | none => ([c], cs)

theorem prefix_append_drop {op t : List Char} (h : op.isPrefixOf t = true) :
    op ++ t.drop op.length = t := by
  have hp : op <+: t := by simpa [List.isPrefixOf_iff_prefix] using h
  obtain ⟨u, hu⟩ := hp
  subst hu
  simp

theorem nextToken_append : ∀ (t : List Char), (nextToken t).1 ++ (nextToken t).2 = t := by
  intro t
  cases t with
  | nil => rfl
  | cons c cs =>
    simp only [nextToken]
    split
    · exact List.takeWhile_append_dropWhile _ _
    · split
      · exact List.takeWhile_append_dropWhile _ _
      · split
        · -- digit branch
          split
          · rename_i r1 heq
            split
            · have h1 : List.takeWhile Char.isDigit r1 ++ List.dropWhile Char.isDigit r1 = r1 :=
                List.takeWhile_append_dropWhile _ _
              have h2 := List.takeWhile_append_dropWhile Char.isDigit (c :: cs)
              rw [heq] at h2
              simp only [List.append_assoc, List.cons_append, h1]
              exact h2
            · exact List.takeWhile_append_dropWhile _ _
          · exact List.takeWhile_append_dropWhile _ _
        · -- operator branch
          split
          · rename_i op hop
            exact prefix_append_drop (matchOp_mem _ _ _ hop).2
          · simp

theorem char_cases_ws {x : Char} (h : x.isWhitespace = true) :
    x = ' ' ∨ x = '\t' ∨ x = '\r' ∨ x = '\n' := by
  simp only [Char.isWhitespace, Bool.or_eq_true, decide_eq_true_eq] at h
  tauto

theorem identChar_not_ws {x : Char} (h : isIdentChar x = true) : x.isWhitespace = false := by
  by_contra hw
  have hw2 : x.isWhitespace = true := by
    cases hx : x.isWhitespace
    · exact absurd hx hw
    · rfl
  rcases char_cases_ws hw2 with rfl | rfl | rfl | rfl <;> exact absurd h (by decide)

theorem digit_not_ws {x : Char} (h : x.isDigit = true) : x.isWhitespace = false := by
  by_contra hw
  have hw2 : x.isWhitespace = true := by
    cases hx : x.isWhitespace
    · exact absurd hx hw
    · rfl
  rcases char_cases_ws hw2 with rfl | rfl | rfl | rfl <;> exact absurd h (by decide)

theorem opTable_not_ws : ∀ op ∈ opTable, ∀ x ∈ op, x.isWhitespace = false := by decide

/-- True when every character of the text is whitespace. -/
def allSpace (t : List Char) : Bool := t.all Char.isWhitespace

/-- True when no character of the text is whitespace. -/
def noSpace (t : List Char) : Bool := t.all (fun c => !c.isWhitespace)

theorem nextToken_fst_allSpace {c : Char} {cs : List Char} (h : c.isWhitespace = true) :
    allSpace (nextToken (c :: cs)).1 = true := by
  simp only [nextToken, h, if_true]
  simp only [allSpace, List.all_eq_true]
  intro x hx
  exact List.mem_takeWhile_imp hx

theorem nextToken_fst_noSpace {c : Char} {cs : List Char} (h : c.isWhitespace = false) :
    noSpace (nextToken (c :: cs)).1 = true := by
  simp only [nextToken, h, Bool.false_eq_true, if_false]
  split
  · rename_i hi
    simp only [noSpace, List.all_eq_true]
    intro x hx
    simp [identChar_not_ws (List.mem_takeWhile_imp hx)]
  · rename_i hi
    split
    · rename_i hd
      split
      · rename_i r1 heq
        split
        · simp only [noSpace, List.all_eq_true]
          intro x hx
          simp only [List.mem_append, List.mem_cons] at hx
          rcases hx with hx | hx | hx
          · simp [digit_not_ws (List.mem_takeWhile_imp hx)]
          · subst hx; decide
          · simp [digit_not_ws (List.mem_takeWhile_imp hx)]
        · simp only [noSpace, List.all_eq_true]
          intro x hx
          simp [digit_not_ws (List.mem_takeWhile_imp hx)]
      · simp only [noSpace, List.all_eq_true]
        intro x hx
        simp [digit_not_ws (List.mem_takeWhile_imp hx)]
    · rename_i hd
      split
      · rename_i op hop
        simp only [noSpace, List.all_eq_true]
        intro x hx
        simp [opTable_not_ws op (matchOp_mem _ _ _ hop).1 x hx]
      · simp only [noSpace, List.all_eq_true, List.mem_singleton]
        intro x hx
        subst hx
        simp [h]

theorem takeWhile_head_cons {p : Char → Bool} {c : Char} {cs : List Char} (h : p c = true) :
    (c :: cs).takeWhile p = c :: cs.takeWhile p := by
  simp [List.takeWhile_cons, h]

theorem opTable_ne_nil : ∀ op ∈ opTable, op ≠ [] := by decide

theorem nextToken_fst_ne {c : Char} {cs : List Char} : (nextToken (c :: cs)).1 ≠ [] := by
  simp only [nextToken]
  split
  · rename_i hw
    simp [takeWhile_head_cons hw]
  · split
    · rename_i hw hi
      have : isIdentChar c = true := by
        simp only [isIdentChar, Bool.or_eq_true]
        simp only [isIdentStart, Bool.or_eq_true] at hi
        tauto
      simp [takeWhile_head_cons this]
    · split
      · rename_i hw hi hd
        split
        · split
          · simp [takeWhile_head_cons hd]
          · simp [takeWhile_head_cons hd]
        · simp [takeWhile_head_cons hd]
      · split
        · rename_i op hop
          exact opTable_ne_nil op (matchOp_mem _ _ _ hop).1
        · simp

theorem nextToken_snd_length {c : Char} {cs : List Char} :
    (nextToken (c :: cs)).2.length < (c :: cs).length := by
  have happ := nextToken_append (c :: cs)
  have hne := @nextToken_fst_ne c cs
  have hlen : (nextToken (c :: cs)).1.length + (nextToken (c :: cs)).2.length =
      (c :: cs).length := by
    rw [← List.length_append, happ]
  have : 0 < (nextToken (c :: cs)).1.length := List.length_pos.mpr hne
  omega

/-- Modelled from the spec: the LanguageLexer for the python language
rules, splitting a code text into the ordered sequence of its syntactic
tokens by repeated next-token extraction. -/
def pythonLex : List Char → List (List Char)
  | [] => []
  | c :: cs => (nextToken (c :: cs)).1 :: pythonLex (nextToken (c :: cs)).2
termination_by t => t.length
decreasing_by
  exact nextToken_snd_length

theorem pythonLex_flatten : ∀ (t : List Char), (pythonLex t).flatten = t
  | [] => by simp [pythonLex]
  | c :: cs => by
    rw [pythonLex]
    simp only [List.flatten_cons]
    rw [pythonLex_flatten (nextToken (c :: cs)).2]
    exact nextToken_append (c :: cs)
termination_by t => t.length
decreasing_by
  exact nextToken_snd_length

theorem bool_ne_true {b : Bool} (h : ¬b = true) : b = false := by
  cases hb : b
  · rfl
  · exact absurd hb h

theorem dropWhile_head_false : ∀ (l : List Char) (p : Char → Bool) (x : Char) (xs : List Char),
    l.dropWhile p = x :: xs → p x = false := by
  intro l
  induction l with
  | nil => intro p x xs h; simp at h
  | cons c cs ih =>
    intro p x xs h
    by_cases hp : p c
    · rw [List.dropWhile_cons_of_pos hp] at h
      exact ih p x xs h
    · rw [List.dropWhile_cons_of_neg hp] at h
      injection h with h1 h2
      rw [← h1]
      exact bool_ne_true hp

theorem nextToken_snd_ws {c x : Char} {cs xs : List Char} (h : c.isWhitespace = true)
    (h2 : (nextToken (c :: cs)).2 = x :: xs) : x.isWhitespace = false := by
  simp only [nextToken, h, if_true] at h2
  exact dropWhile_head_false _ _ _ _ h2

theorem noSpace_allSpace_false {t : List Char} (hne : t ≠ []) (hno : noSpace t = true) :
    allSpace t = false := by
  cases t with
  | nil => exact absurd rfl hne
  | cons a as =>
    simp only [noSpace, List.all_cons, Bool.and_eq_true, Bool.not_eq_true'] at hno
    simp [allSpace, hno.1]

theorem pythonLex_chain : ∀ (t : List Char),
    List.Chain' (fun a b => ¬(allSpace a = true ∧ allSpace b = true)) (pythonLex t)
  | [] => by simp [pythonLex]
  | c :: cs => by
    rw [pythonLex]
    apply List.Chain'.cons'
    · exact pythonLex_chain (nextToken (c :: cs)).2
    · intro b hb
      by_cases hw : c.isWhitespace
      · cases hr : (nextToken (c :: cs)).2 with
        | nil =>
          rw [hr] at hb
          simp [pythonLex] at hb
        | cons x xs =>
          have hx : x.isWhitespace = false := nextToken_snd_ws hw hr
          rw [hr] at hb
          rw [pythonLex] at hb
          simp only [List.head?_cons, Option.mem_def, Option.some.injEq] at hb
          subst hb
          have hns := @nextToken_fst_noSpace x xs hx
          have hne := @nextToken_fst_ne x xs
          intro hcontra
          rw [noSpace_allSpace_false hne hns] at hcontra
          exact absurd hcontra.2 (by simp)
      · have hns := @nextToken_fst_noSpace c cs (bool_ne_true hw)
        have hne := @nextToken_fst_ne c cs
        intro hcontra
        rw [noSpace_allSpace_false hne hns] at hcontra
        exact absurd hcontra.1 (by simp)
termination_by t => t.length
decreasing_by
  exact nextToken_snd_length

theorem pythonLex_mem : ∀ (t tok : List Char), tok ∈ pythonLex t →
    tok ≠ [] ∧ (allSpace tok = true ∨ noSpace tok = true)
  | [], tok => by simp [pythonLex]
  | c :: cs, tok => by
    rw [pythonLex]
    intro hmem
    rcases List.mem_cons.mp hmem with rfl | hmem2
    · refine ⟨nextToken_fst_ne, ?_⟩
      by_cases hw : c.isWhitespace
      · exact Or.inl (nextToken_fst_allSpace hw)
      · exact Or.inr (nextToken_fst_noSpace (bool_ne_true hw))
    · exact pythonLex_mem (nextToken (c :: cs)).2 tok hmem2
termination_by t _ => t.length
decreasing_by
  exact nextToken_snd_length

/-- Membership of a block language tag in the recognized language set. -/
def langRecognized : Option (List Char) → List (List Char) → Bool
  | none, _ => false
  | some t, langs => langs.contains t

/-- Modelled from the spec: the stage selected for one block, producing
local spans with offsets starting at zero.  A code block whose language is
recognized goes to the LanguageLexer; every other block, including code
blocks with an unrecognized language, falls back to the ByteLevelSplitter
(the UnrecognizedLanguage condition is absorbed here, never raised). -/
def localStage (cfg : PipelineConfig) (b : Block) : List Span :=
  if b.isCode && langRecognized b.lang cfg.languages then
    spansOfRuns 0 (pythonLex b.text)
  else byteLevelLocal cfg b.text

/-- Modelled from the spec: route one block through its stage, then
translate every local offset back to a global one by adding the block
start offset. -/
def routeBlock (cfg : PipelineConfig) (b : Block) : List Span :=
  (localStage cfg b).map (fun s => translateSpan s b.start)

/-- Modelled from the spec: the run operation of PreTokenizerPipeline:
detect blocks, route each block to its stage, and concatenate the
per-block span sequences in original text order. -/
def pipelineRun (cfg : PipelineConfig) (text : List Char) : List Span :=
  ((detect text).map (routeBlock cfg)).flatten

/-- The pipeline configuration of the driver script: languages python and
py, addPrefixSpace false, trimOffsets true, useRegexSplit false. -/
def hybridConfig : PipelineConfig :=
  ⟨["python".data, "py".data], false, true, false⟩

theorem routeBlock_tiles {cfg : PipelineConfig} (h : cfg.addPrefixSpace = false) (b : Block) :
    concatText (routeBlock cfg b) = b.text ∧
    chainedTo b.start (b.start + b.text.length) (routeBlock cfg b) = true := by
  rw [routeBlock, localStage]
  by_cases hc : b.isCode && langRecognized b.lang cfg.languages
  · rw [if_pos hc, spansOfRuns_map_translate, Nat.zero_add]
    constructor
    · rw [spansOfRuns_concat, pythonLex_flatten]
    · have := spansOfRuns_chained (pythonLex b.text) b.start
      rw [pythonLex_flatten] at this
      exact this
  · rw [if_neg hc, byteLevelLocal_noprefix h, spansOfRuns_map_translate, Nat.zero_add]
    constructor
    · rw [spansOfRuns_concat, splitRuns_flatten]
    · have := spansOfRuns_chained (splitRuns b.text) b.start
      rw [splitRuns_flatten] at this
      exact this

theorem blocks_route_tiles {cfg : PipelineConfig} (h : cfg.addPrefixSpace = false) :
    ∀ (bs : List Block) (n m : Nat), blocksChainedTo n m bs = true →
    concatText ((bs.map (routeBlock cfg)).flatten) = blockConcat bs ∧
    chainedTo n m ((bs.map (routeBlock cfg)).flatten) = true := by
  intro bs
  induction bs with
  | nil =>
    intro n m hc
    simp only [blocksChainedTo] at hc
    simp [concatText, blockConcat, chainedTo, hc]
  | cons b bs ih =>
    intro n m hc
    simp only [blocksChainedTo, Bool.and_eq_true, beq_iff_eq] at hc
    obtain ⟨hstart, hrest⟩ := hc
    obtain ⟨ihc, ihch⟩ := ih (n + b.text.length) m hrest
    obtain ⟨rc, rch⟩ := routeBlock_tiles h b
    constructor
    · simp only [List.map_cons, List.flatten_cons, blockConcat]
      simp only [concatText] at rc ihc ⊢
      simp only [blockConcat] at ihc
      rw [List.map_append, List.flatten_append, rc, ihc]
    · simp only [List.map_cons, List.flatten_cons]
      rw [hstart] at rch
      exact chainedTo_append rch ihch

theorem pipelineRun_tiles {cfg : PipelineConfig} (h : cfg.addPrefixSpace = false)
    (text : List Char) :
    concatText (pipelineRun cfg text) = text ∧
    chainedTo 0 text.length (pipelineRun cfg text) = true := by
  obtain ⟨hc, hch⟩ := blocks_route_tiles h (detect text) 0 text.length (detect_chained text)
  rw [detect_concat] at hc
  exact ⟨hc, hch⟩

/-- Modelled from the spec: the error kinds of the pipeline.  The first two
are absorbed locally with a fallback behavior; a TilingViolation is fatal
and propagates to the caller of run. -/
inductive PipelineError where
  | UnrecognizedLanguage : PipelineError
  | UnterminatedFence : PipelineError
  | TilingViolation : PipelineError
  | InvalidOffsetConfig : PipelineError
deriving DecidableEq, Repr

/-- Modelled from the spec: the tiling check applied to the output of every
stage: the produced spans must cover the assigned block exactly. -/
def checkTiles (b : Block) (out : List Span) : Bool :=
  concatText out == b.text && chainedTo b.start (b.start + b.text.length) out

/-- Modelled from the spec: the checked pass over the detected blocks; a
stage output that fails the tiling check aborts the pass with a
TilingViolation instead of being passed downstream. -/
def runCheckedBlocks (cfg : PipelineConfig) : List Block → Except PipelineError (List Span)
  | [] => Except.ok []
  | b :: bs =>
    if checkTiles b (routeBlock cfg b) then
      match runCheckedBlocks cfg bs with
      | Except.ok rest => Except.ok (routeBlock cfg b ++ rest)
      | Except.error e => Except.error e
    else Except.error PipelineError.TilingViolation

/-- Modelled from the spec: the failure-reporting variant of run: either a
fully tiled span sequence or an explicit error, never partial output. -/
def runChecked (cfg : PipelineConfig) (text : List Char) : Except PipelineError (List Span) :=
  runCheckedBlocks cfg (detect text)

theorem runCheckedBlocks_tiles {cfg : PipelineConfig} :
    ∀ (bs : List Block) (n m : Nat) (out : List Span), blocksChainedTo n m bs = true →
    runCheckedBlocks cfg bs = Except.ok out →
    concatText out = blockConcat bs ∧ chainedTo n m out = true := by
  intro bs
  induction bs with
  | nil =>
    intro n m out hc hok
    simp only [runCheckedBlocks] at hok
    injection hok with hout
    subst hout
    simp only [blocksChainedTo] at hc
    simp [concatText, blockConcat, chainedTo, hc]
  | cons b bs ih =>
    intro n m out hc hok
    simp only [blocksChainedTo, Bool.and_eq_true, beq_iff_eq] at hc
    obtain ⟨hstart, hrest⟩ := hc
    simp only [runCheckedBlocks] at hok
    by_cases hcheck : checkTiles b (routeBlock cfg b)
    · rw [if_pos hcheck] at hok
      cases hrec : runCheckedBlocks cfg bs with
      | ok rest =>
        rw [hrec] at hok
        injection hok with hout
        subst hout
        obtain ⟨ihc, ihch⟩ := ih (n + b.text.length) m rest hrest hrec
        simp only [checkTiles, Bool.and_eq_true, beq_iff_eq] at hcheck
        obtain ⟨hbc, hbch⟩ := hcheck
        constructor
        · have hsplit : concatText (routeBlock cfg b ++ rest) =
              concatText (routeBlock cfg b) ++ concatText rest := by
            simp [concatText]
          rw [hsplit, hbc, ihc]
          simp [blockConcat]
        · rw [hstart] at hbch
          exact chainedTo_append hbch ihch
      | error e =>
        rw [hrec] at hok
        simp at hok
    · rw [if_neg hcheck] at hok
      simp at hok

theorem runChecked_ok {cfg : PipelineConfig} (h : cfg.addPrefixSpace = false)
    (text : List Char) : runChecked cfg text = Except.ok (pipelineRun cfg text) := by
  rw [runChecked, pipelineRun]
  generalize detect text = bs
  induction bs with
  | nil => rfl
  | cons b bs ih =>
    simp only [runCheckedBlocks]
    have hcheck : checkTiles b (routeBlock cfg b) = true := by
      obtain ⟨hc, hch⟩ := routeBlock_tiles h b
      simp [checkTiles, hc, hch]
    rw [if_pos hcheck, ih]
    simp

/-- Encoding boundary: token IDs obtained by applying a vocabulary encode
map to the text of each span, in order. -/
def encodeSpans {ι : Type} (enc : List Char → ι) (spans : List Span) : List ι :=
  spans.map (fun s => enc s.text)

/-- Decoding boundary: text reconstructed by applying a vocabulary decode
map to each ID and concatenating. -/
def decodeIds {ι : Type} (dec : ι → List Char) (ids : List ι) : List Char :=
  (ids.map dec).flatten

/-- A pre-tokenization stage maps one span to the ordered spans replacing it. -/
def Stage : Type := Span → List Span

/-- A span is well formed when its width matches its text. -/
def spanWF (s : Span) : Bool := s.stop == s.start + s.text.length

/-- Modelled from the spec (driver script): the CodeLexer pre-tokenizer on
one detected block: a recognized code body is lexed, any other block is
kept whole as a single span for the following stage. -/
def codeLexerLocal (langs : List (List Char)) (b : Block) : List Span :=
  if b.isCode && langRecognized b.lang langs then spansOfRuns b.start (pythonLex b.text)
  else [⟨b.start, b.start + b.text.length, b.text⟩]

/-- Modelled from the spec (driver script): the CodeLexer pre-tokenizer as
a stage: detect fenced blocks inside the span and apply codeLexerLocal to
each, translating offsets by the start of the consumed span. -/
def codeLexerStage (langs : List (List Char)) : Stage := fun sp =>
  (((detect sp.text).map (codeLexerLocal langs)).flatten).map
    (fun s => translateSpan s sp.start)

/-- Modelled from the spec (driver script): the ByteLevel pre-tokenizer as
a stage. -/
def byteLevelStage (cfg : PipelineConfig) : Stage := byteLevelSplit cfg

/-- Modelled from the spec (driver script): Sequence applies its stages in
list order, each stage consuming every span of the previous output; the
initial split is the whole text as one span. -/
def seqRun (stages : List Stage) (text : List Char) : List Span :=
  stages.foldl (fun spans st => (spans.map st).flatten) [⟨0, text.length, text⟩]

theorem spansOfRuns_WF (rs : List (List Char)) : ∀ (off : Nat),
    ∀ s ∈ spansOfRuns off rs, spanWF s = true := by
  induction rs with
  | nil => intro off s hs; simp [spansOfRuns] at hs
  | cons r rs ih =>
    intro off s hs
    simp only [spansOfRuns, List.mem_cons] at hs
    rcases hs with rfl | hs
    · simp [spanWF]
    · exact ih (off + r.length) s hs

theorem translate_WF {s : Span} (h : spanWF s = true) (off : Nat) :
    spanWF (translateSpan s off) = true := by
  simp only [spanWF, beq_iff_eq] at h ⊢
  simp only [translateSpan]
  omega

theorem map_translate_concat (xs : List Span) (off : Nat) :
    concatText (xs.map (fun s => translateSpan s off)) = concatText xs := by
  induction xs with
  | nil => rfl
  | cons s ss ih =>
    simp only [concatText, List.map_cons, List.flatten_cons] at ih ⊢
    rw [ih]
    rfl

theorem map_translate_chained {xs : List Span} : ∀ {n m : Nat} (off : Nat),
    chainedTo n m xs = true →
    chainedTo (n + off) (m + off) (xs.map (fun s => translateSpan s off)) = true := by
  induction xs with
  | nil =>
    intro n m off h
    simp only [chainedTo, beq_iff_eq] at h
    simp [chainedTo, h]
  | cons s ss ih =>
    intro n m off h
    simp only [chainedTo, Bool.and_eq_true, beq_iff_eq] at h
    obtain ⟨hs, hrest⟩ := h
    simp only [List.map_cons, chainedTo, translateSpan, Bool.and_eq_true, beq_iff_eq]
    exact ⟨by omega, ih off hrest⟩

theorem codeLexerLocal_tiles (langs : List (List Char)) (b : Block) :
    concatText (codeLexerLocal langs b) = b.text ∧
    chainedTo b.start (b.start + b.text.length) (codeLexerLocal langs b) = true ∧
    ∀ s ∈ codeLexerLocal langs b, spanWF s = true := by
  rw [codeLexerLocal]
  by_cases hc : b.isCode && langRecognized b.lang langs
  · rw [if_pos hc]
    refine ⟨?_, ?_, ?_⟩
    · rw [spansOfRuns_concat, pythonLex_flatten]
    · have := spansOfRuns_chained (pythonLex b.text) b.start
      rw [pythonLex_flatten] at this
      exact this
    · exact spansOfRuns_WF (pythonLex b.text) b.start
  · rw [if_neg hc]
    refine ⟨?_, ?_, ?_⟩
    · simp [concatText]
    · simp [chainedTo]
    · intro s hs
      simp only [List.mem_singleton] at hs
      subst hs
      simp [spanWF]

theorem blocks_codeLexer_tiles (langs : List (List Char)) :
    ∀ (bs : List Block) (n m : Nat), blocksChainedTo n m bs = true →
    concatText ((bs.map (codeLexerLocal langs)).flatten) = blockConcat bs ∧
    chainedTo n m ((bs.map (codeLexerLocal langs)).flatten) = true ∧
    ∀ s ∈ (bs.map (codeLexerLocal langs)).flatten, spanWF s = true := by
  intro bs
  induction bs with
  | nil =>
    intro n m hc
    simp only [blocksChainedTo] at hc
    simp [concatText, blockConcat, chainedTo, hc]
  | cons b bs ih =>
    intro n m hc
    simp only [blocksChainedTo, Bool.and_eq_true, beq_iff_eq] at hc
    obtain ⟨hstart, hrest⟩ := hc
    obtain ⟨ihc, ihch, ihwf⟩ := ih (n + b.text.length) m hrest
    obtain ⟨rc, rch, rwf⟩ := codeLexerLocal_tiles langs b
    refine ⟨?_, ?_, ?_⟩
    · simp only [List.map_cons, List.flatten_cons, blockConcat, List.map_cons,
        List.flatten_cons]
      have hsplit : concatText (codeLexerLocal langs b ++
          (bs.map (codeLexerLocal langs)).flatten) =
          concatText (codeLexerLocal langs b) ++
          concatText ((bs.map (codeLexerLocal langs)).flatten) := by
        simp [concatText]
      rw [hsplit, rc, ihc]
      simp [blockConcat]
    · simp only [List.map_cons, List.flatten_cons]
      rw [hstart] at rch
      exact chainedTo_append rch ihch
    · intro s hs
      simp only [List.map_cons, List.flatten_cons, List.mem_append] at hs
      rcases hs with hs | hs
      · exact rwf s hs
      · exact ihwf s hs

theorem codeLexerStage_tiles (langs : List (List Char)) {sp : Span}
    (hwf : spanWF sp = true) :
    concatText (codeLexerStage langs sp) = sp.text ∧
    chainedTo sp.start sp.stop (codeLexerStage langs sp) = true ∧
    ∀ s ∈ codeLexerStage langs sp, spanWF s = true := by
  obtain ⟨hc, hch, hwfs⟩ :=
    blocks_codeLexer_tiles langs (detect sp.text) 0 sp.text.length (detect_chained sp.text)
  rw [detect_concat] at hc
  rw [codeLexerStage]
  refine ⟨?_, ?_, ?_⟩
  · rw [map_translate_concat, hc]
  · have := map_translate_chained sp.start hch
    simp only [spanWF, beq_iff_eq] at hwf
    have heq1 : 0 + sp.start = sp.start := by omega
    have heq2 : sp.text.length + sp.start = sp.stop := by omega
    rw [heq1, heq2] at this
    exact this
  · intro s hs
    simp only [List.mem_map] at hs
    obtain ⟨s0, hs0, rfl⟩ := hs
    exact translate_WF (hwfs s0 hs0) sp.start

theorem byteLevelStage_tiles {cfg : PipelineConfig} (h : cfg.addPrefixSpace = false)
    {sp : Span} (hwf : spanWF sp = true) :
    concatText (byteLevelStage cfg sp) = sp.text ∧
    chainedTo sp.start sp.stop (byteLevelStage cfg sp) = true := by
  rw [byteLevelStage, byteLevelSplit, byteLevelLocal_noprefix h]
  constructor
  · rw [map_translate_concat, spansOfRuns_concat, splitRuns_flatten]
  · have hch := spansOfRuns_chained (splitRuns sp.text) 0
    rw [splitRuns_flatten] at hch
    have := map_translate_chained sp.start hch
    simp only [spanWF, beq_iff_eq] at hwf
    have heq1 : 0 + sp.start = sp.start := by omega
    have heq2 : 0 + sp.text.length + sp.start = sp.stop := by omega
    rw [heq1, heq2] at this
    exact this

theorem spans_byteLevel_tiles {cfg : PipelineConfig} (h : cfg.addPrefixSpace = false) :
    ∀ (spans : List Span) (n m : Nat), chainedTo n m spans = true →
    (∀ s ∈ spans, spanWF s = true) →
    concatText ((spans.map (byteLevelStage cfg)).flatten) = concatText spans ∧
    chainedTo n m ((spans.map (byteLevelStage cfg)).flatten) = true := by
  intro spans
  induction spans with
  | nil =>
    intro n m hc _
    simp only [chainedTo, beq_iff_eq] at hc
    simp [concatText, chainedTo, hc]
  | cons s ss ih =>
    intro n m hc hwf
    simp only [chainedTo, Bool.and_eq_true, beq_iff_eq] at hc
    obtain ⟨hstart, hrest⟩ := hc
    obtain ⟨ihc, ihch⟩ := ih s.stop m hrest (fun x hx => hwf x (by simp [hx]))
    obtain ⟨sc, sch⟩ := byteLevelStage_tiles h (hwf s (by simp))
    refine ⟨?_, ?_⟩
    · simp only [List.map_cons, List.flatten_cons]
      have hsplit : concatText (byteLevelStage cfg s ++
          (ss.map (byteLevelStage cfg)).flatten) =
          concatText (byteLevelStage cfg s) ++
          concatText ((ss.map (byteLevelStage cfg)).flatten) := by
        simp [concatText]
      rw [hsplit, sc, ihc]
      simp [concatText]
    · simp only [List.map_cons, List.flatten_cons]
      rw [hstart] at sch
      exact chainedTo_append sch ihch

theorem detectLines_unterminated : ∀ (pre : List (List Char)) (off : Nat) (l : List Char)
    (ls : List (List Char)),
    (∀ p ∈ pre, isFenceLine p = false) → isFenceLine l = true →
    (∀ m ∈ ls, isFenceLine m = false) →
    (∀ b ∈ detectLines off (pre ++ l :: ls), b.isCode = false) ∧
    (∃ bs, detectLines off (pre ++ l :: ls) =
      bs ++ [⟨off + pre.flatten.length, false, none, (l :: ls).flatten⟩]) := by
  intro pre
  induction pre with
  | nil =>
    intro off l ls hpre hl hls
    simp only [List.nil_append]
    rw [detectLines]
    simp only [hl, if_true]
    cases hsc : splitAtClose ls with
    | some v =>
      rw [splitAtClose_none ls hls] at hsc
      exact absurd hsc (by simp)
    | none =>
      constructor
      · intro b hb
        simp only [List.mem_singleton] at hb
        subst hb
        rfl
      · exact ⟨[], by simp⟩
  | cons p pre ih =>
    intro off l ls hpre hl hls
    have hp : isFenceLine p = false := hpre p (by simp)
    simp only [List.cons_append]
    rw [detectLines]
    simp only [hp, Bool.false_eq_true, if_false]
    obtain ⟨ih1, bs, ih2⟩ := ih (off + p.length) l ls (fun x hx => hpre x (by simp [hx])) hl hls
    have harith : off + p.length + pre.flatten.length = off + (p :: pre).flatten.length := by
      simp
      omega
    rw [harith] at ih2
    constructor
    · intro b hb
      rcases List.mem_cons.mp hb with rfl | hb2
      · rfl
      · exact ih1 b hb2
    · refine ⟨⟨off, false, none, p⟩ :: bs, ?_⟩
      rw [ih2]
      simp

theorem chainedTo_chain : ∀ (xs : List Span) (n m : Nat), chainedTo n m xs = true →
    List.Chain' (fun a b => a.stop = b.start) xs := by
  intro xs
  induction xs with
  | nil => intro n m _; simp
  | cons s ss ih =>
    intro n m h
    simp only [chainedTo, Bool.and_eq_true, beq_iff_eq] at h
    obtain ⟨_, hrest⟩ := h
    apply List.Chain'.cons'
    · exact ih s.stop m hrest
    · intro b hb
      cases ss with
      | nil => simp at hb
      | cons x xs2 =>
        simp only [List.head?_cons, Option.mem_def, Option.some.injEq] at hb
        subst hb
        simp only [chainedTo, Bool.and_eq_true, beq_iff_eq] at hrest
        exact hrest.1.symm

theorem chainedTo_start_ge : ∀ (xs : List Span) (n m : Nat), chainedTo n m xs = true →
    (∀ s ∈ xs, spanWF s = true) → ∀ b ∈ xs, n ≤ b.start := by
  intro xs
  induction xs with
  | nil => intro n m _ _ b hb; simp at hb
  | cons s ss ih =>
    intro n m h hwf b hb
    simp only [chainedTo, Bool.and_eq_true, beq_iff_eq] at h
    obtain ⟨hstart, hrest⟩ := h
    rcases List.mem_cons.mp hb with rfl | hb2
    · omega
    · have hstop := ih s.stop m hrest (fun x hx => hwf x (by simp [hx])) b hb2
      have hw := hwf s (by simp)
      simp only [spanWF, beq_iff_eq] at hw
      omega

theorem chainedTo_pairwise : ∀ (xs : List Span) (n m : Nat), chainedTo n m xs = true →
    (∀ s ∈ xs, spanWF s = true) →
    List.Pairwise (fun a b => a.start ≤ b.start ∧ a.stop ≤ b.start) xs := by
  intro xs
  induction xs with
  | nil => intro n m _ _; simp
  | cons s ss ih =>
    intro n m h hwf
    simp only [chainedTo, Bool.and_eq_true, beq_iff_eq] at h
    obtain ⟨hstart, hrest⟩ := h
    apply List.Pairwise.cons
    · intro b hb
      have hge := chainedTo_start_ge ss s.stop m hrest
        (fun x hx => hwf x (by simp [hx])) b hb
      have hw := hwf s (by simp)
      simp only [spanWF, beq_iff_eq] at hw
      omega
    · exact ih s.stop m hrest (fun x hx => hwf x (by simp [hx]))

theorem routeBlock_WF {cfg : PipelineConfig} (h : cfg.addPrefixSpace = false) (b : Block) :
    ∀ s ∈ routeBlock cfg b, spanWF s = true := by
  intro s hs
  rw [routeBlock, localStage] at hs
  by_cases hc : b.isCode && langRecognized b.lang cfg.languages
  · rw [if_pos hc, spansOfRuns_map_translate] at hs
    exact spansOfRuns_WF _ _ s hs
  · rw [if_neg hc, byteLevelLocal_noprefix h, spansOfRuns_map_translate] at hs
    exact spansOfRuns_WF _ _ s hs

theorem pipelineRun_WF {cfg : PipelineConfig} (h : cfg.addPrefixSpace = false)
    (text : List Char) : ∀ s ∈ pipelineRun cfg text, spanWF s = true := by
  intro s hs
  rw [pipelineRun] at hs
  simp only [List.mem_flatten, List.mem_map] at hs
  obtain ⟨out, ⟨b, _, rfl⟩, hsout⟩ := hs
  exact routeBlock_WF h b s hsout

theorem runCheckedBlocks_error {cfg : PipelineConfig} : ∀ (bs : List Block) (e : PipelineError),
    runCheckedBlocks cfg bs = Except.error e → e = PipelineError.TilingViolation := by
  intro bs
  induction bs with
  | nil => intro e h; simp [runCheckedBlocks] at h
  | cons b bs ih =>
    intro e h
    simp only [runCheckedBlocks] at h
    by_cases hcheck : checkTiles b (routeBlock cfg b)
    · rw [if_pos hcheck] at h
      cases hrec : runCheckedBlocks cfg bs with
      | ok rest => rw [hrec] at h; simp at h
      | error e2 =>
        rw [hrec] at h
        injection h with h2
        subst h2
        exact ih e2 hrec
    · rw [if_neg hcheck] at h
      injection h with h2
      exact h2.symm

/-- Claim C1: for every input text, the span sequence returned by the
pipeline run under the driver configuration tiles the whole input: the
concatenation of span texts equals the text byte for byte, the spans are
chained exactly over the range from 0 to the text length (sorted,
contiguous, non-overlapping), consecutive spans meet exactly, and any two
spans in order neither swap starts nor overlap. -/
theorem C1_run_tiling (text : List Char) :
    concatText (pipelineRun hybridConfig text) = text ∧
    chainedTo 0 text.length (pipelineRun hybridConfig text) = true ∧
    List.Chain' (fun a b => a.stop = b.start) (pipelineRun hybridConfig text) ∧
    List.Pairwise (fun a b => a.start ≤ b.start ∧ a.stop ≤ b.start)
      (pipelineRun hybridConfig text) := by
  obtain ⟨hc, hch⟩ := @pipelineRun_tiles hybridConfig rfl text
  refine ⟨hc, hch, chainedTo_chain _ 0 text.length hch, ?_⟩
  exact chainedTo_pairwise _ 0 text.length hch (pipelineRun_WF rfl text)

/-- Claim C2: for every text, decoding the encoding of the pipeline run
reconstructs the text exactly whenever the vocabulary model is
round-trip-faithful on token texts (the identity vocabulary test model). -/
theorem C2_roundtrip {ι : Type} (enc : List Char → ι) (dec : ι → List Char)
    (hinv : ∀ t, dec (enc t) = t) (text : List Char) :
    decodeIds dec (encodeSpans enc (pipelineRun hybridConfig text)) = text := by
  have hmap : (pipelineRun hybridConfig text).map (fun s => dec (enc s.text)) =
      (pipelineRun hybridConfig text).map Span.text := by
    apply List.map_congr_left
    intro s _
    exact hinv s.text
  rw [decodeIds, encodeSpans, List.map_map]
  simp only [Function.comp_def]
  rw [hmap]
  exact (@pipelineRun_tiles hybridConfig rfl text).1

theorem C2_roundtrip_witness :
    decodeIds (fun t => t) (encodeSpans (fun t => t)
      (pipelineRun hybridConfig ("hi there".data))) = "hi there".data :=
  C2_roundtrip (fun t => t) (fun t => t) (fun _ => rfl) ("hi there".data)

/-- Claim C5: the pipeline translates every stage-local span to a global
one by adding the block start offset (translateSpan adds the offset to
start and stop and leaves the text unchanged), and the run is exactly the
concatenation, in original text order, of the per-block local stage
outputs translated by each block start. -/
theorem C5_offset_translation (cfg : PipelineConfig) (text : List Char) :
    pipelineRun cfg text =
      ((detect text).map
        (fun b => (localStage cfg b).map (fun s => translateSpan s b.start))).flatten ∧
    (∀ (s : Span) (off : Nat), (translateSpan s off).start = s.start + off ∧
      (translateSpan s off).stop = s.stop + off ∧ (translateSpan s off).text = s.text) :=
  ⟨rfl, fun _ _ => ⟨rfl, rfl, rfl⟩⟩

/-- Claim C6: under the immutable driver configuration (addPrefixSpace
false, trimOffsets true) two invocations of the pipeline run on the same
text yield identical span sequences: the run is a pure deterministic
function of its input, with no hidden state between calls. -/
theorem C6_deterministic (text1 text2 : List Char) (h : text2 = text1) :
    pipelineRun hybridConfig text2 = pipelineRun hybridConfig text1 := by
  rw [h]

theorem C6_deterministic_witness :
    pipelineRun hybridConfig ("ab c".data) = pipelineRun hybridConfig ("ab c".data) :=
  C6_deterministic ("ab c".data) ("ab c".data) rfl

/-- Claim C8: for every configuration and text, the checked pass either
returns a span sequence that fully tiles the input, or reports the
explicit TilingViolation failure; it never returns partial output. -/
theorem C8_checked_output (cfg : PipelineConfig) (text : List Char) :
    (∃ out, runChecked cfg text = Except.ok out ∧ concatText out = text ∧
      chainedTo 0 text.length out = true) ∨
    runChecked cfg text = Except.error PipelineError.TilingViolation := by
  cases hrc : runChecked cfg text with
  | ok out =>
    left
    obtain ⟨hc, hch⟩ :=
      runCheckedBlocks_tiles (detect text) 0 text.length out (detect_chained text) hrc
    rw [detect_concat] at hc
    exact ⟨out, rfl, hc, hch⟩
  | error e =>
    right
    have he := runCheckedBlocks_error (detect text) e hrc
    subst he
    rfl

/-- Claim C9: the python language lexer tiles every code span exactly
(concatenating its token texts reconstructs the code), every emitted token
is entirely whitespace or entirely non-whitespace (whitespace is never
merged into an adjacent non-whitespace token), and no two consecutive
tokens are both whitespace (whitespace runs are emitted maximal, as their
own spans). -/
theorem C9_whitespace_spans (code : List Char) :
    (pythonLex code).flatten = code ∧
    (∀ tok ∈ pythonLex code, tok ≠ [] ∧ (allSpace tok = true ∨ noSpace tok = true)) ∧
    List.Chain' (fun a b => ¬(allSpace a = true ∧ allSpace b = true)) (pythonLex code) :=
  ⟨pythonLex_flatten code, fun tok h => pythonLex_mem code tok h, pythonLex_chain code⟩

/-- Claim C3: whenever the input contains an opening fence line with no
matching closing fence line before end of input, the detector degrades the
candidate block to plain text starting at the original marker: every
detected block is non-code (so everything is routed to the
ByteLevelSplitter), the final block starts exactly at the marker and holds
all remaining bytes including the marker, the run output still tiles the
whole text, and the checked pass succeeds (no failure is raised). -/
theorem C3_unterminated_fence (text : List Char) (pre : List (List Char))
    (l : List Char) (ls : List (List Char))
    (hsplit : lines text = pre ++ l :: ls)
    (hpre : ∀ p ∈ pre, isFenceLine p = false)
    (hl : isFenceLine l = true)
    (hls : ∀ m ∈ ls, isFenceLine m = false) :
    (∀ b ∈ detect text, b.isCode = false) ∧
    (∃ bs, detect text =
      bs ++ [⟨pre.flatten.length, false, none, (l :: ls).flatten⟩]) ∧
    concatText (pipelineRun hybridConfig text) = text ∧
    runChecked hybridConfig text = Except.ok (pipelineRun hybridConfig text) := by
  obtain ⟨h1, bs, h2⟩ := detectLines_unterminated pre 0 l ls hpre hl hls
  rw [← hsplit] at h1 h2
  have hz : (0 : Nat) + pre.flatten.length = pre.flatten.length := by omega
  rw [hz] at h2
  refine ⟨h1, ⟨bs, h2⟩, (@pipelineRun_tiles hybridConfig rfl text).1,
    @runChecked_ok hybridConfig rfl text⟩

theorem C3_unterminated_fence_witness :
    (∀ b ∈ detect ("```python\nabc".data), b.isCode = false) ∧
    (∃ bs, detect ("```python\nabc".data) =
      bs ++ [⟨(([] : List (List Char))).flatten.length, false, none,
        ("```python\n".data :: ["abc".data] : List (List Char)).flatten⟩]) ∧
    concatText (pipelineRun hybridConfig ("```python\nabc".data)) = "```python\nabc".data ∧
    runChecked hybridConfig ("```python\nabc".data) =
      Except.ok (pipelineRun hybridConfig ("```python\nabc".data)) :=
  C3_unterminated_fence ("```python\nabc".data) [] ("```python\n".data) ["abc".data]
    (by decide) (by decide) (by decide) (by decide)

/-- Claim C4: a code block whose language tag is not recognized falls back
to the ByteLevelSplitter: the selected local stage is the byte-level
split of the block body, the routed output covers the body exactly (split,
not dropped), and the run never fails on any text under the same
configuration: the UnrecognizedLanguage condition is absorbed locally. -/
theorem C4_unrecognized_fallback (cfg : PipelineConfig) (b : Block)
    (hpfx : cfg.addPrefixSpace = false)
    (hcode : b.isCode = true)
    (hlang : langRecognized b.lang cfg.languages = false) :
    localStage cfg b = byteLevelLocal cfg b.text ∧
    routeBlock cfg b =
      (byteLevelLocal cfg b.text).map (fun s => translateSpan s b.start) ∧
    concatText (routeBlock cfg b) = b.text ∧
    ∀ text, runChecked cfg text = Except.ok (pipelineRun cfg text) := by
  have hloc : localStage cfg b = byteLevelLocal cfg b.text := by
    rw [localStage, hcode, hlang]
    simp
  refine ⟨hloc, ?_, (routeBlock_tiles hpfx b).1, fun text => runChecked_ok hpfx text⟩
  rw [routeBlock, hloc]

theorem C4_unrecognized_fallback_witness :
    localStage ⟨[("python".data)], false, true, false⟩
        ⟨8, true, some ("ruby".data), "puts 1\n".data⟩ =
      byteLevelLocal ⟨[("python".data)], false, true, false⟩ ("puts 1\n".data) ∧
    routeBlock ⟨[("python".data)], false, true, false⟩
        ⟨8, true, some ("ruby".data), "puts 1\n".data⟩ =
      (byteLevelLocal ⟨[("python".data)], false, true, false⟩ ("puts 1\n".data)).map
        (fun s => translateSpan s 8) ∧
    concatText (routeBlock ⟨[("python".data)], false, true, false⟩
      ⟨8, true, some ("ruby".data), "puts 1\n".data⟩) = "puts 1\n".data ∧
    ∀ text, runChecked ⟨[("python".data)], false, true, false⟩ text =
      Except.ok (pipelineRun ⟨[("python".data)], false, true, false⟩ text) :=
  C4_unrecognized_fallback ⟨[("python".data)], false, true, false⟩
    ⟨8, true, some ("ruby".data), "puts 1\n".data⟩ rfl rfl (by decide)

/-- Claim C7: when addPrefixSpace is set and the span text does not start
with a space-equivalent character, the ByteLevelSplitter prepends the
synthetic leading-space marker to the text of the first produced span
while that span still starts at the real start of the span (no offset
drift), and the remaining spans are unchanged. -/
theorem C7_prefix_space (cfg : PipelineConfig) (sp : Span)
    (hpfx : cfg.addPrefixSpace = true)
    (hns : startsWithSpace sp.text = false)
    (hne : sp.text ≠ []) :
    ∃ r rs, splitRuns sp.text = r :: rs ∧
      byteLevelSplit cfg sp =
        ⟨sp.start, sp.start + r.length, spaceMarker :: r⟩ ::
          (spansOfRuns r.length rs).map (fun s => translateSpan s sp.start) ∧
      (byteLevelSplit cfg sp).head?.map Span.start = some sp.start := by
  cases hsr : splitRuns sp.text with
  | nil =>
    exfalso
    have hfl := splitRuns_flatten sp.text
    rw [hsr] at hfl
    simp at hfl
    exact hne hfl
  | cons r rs =>
    have hloc : byteLevelLocal cfg sp.text =
        ⟨0, r.length, spaceMarker :: r⟩ :: spansOfRuns r.length rs := by
      simp [byteLevelLocal, hsr, hpfx, hns, spansOfRuns]
    have heq : byteLevelSplit cfg sp =
        ⟨sp.start, sp.start + r.length, spaceMarker :: r⟩ ::
          (spansOfRuns r.length rs).map (fun s => translateSpan s sp.start) := by
      rw [byteLevelSplit, hloc]
      simp only [List.map_cons]
      congr 1
      simp only [translateSpan]
      congr 1
      · omega
      · omega
    refine ⟨r, rs, rfl, heq, ?_⟩
    rw [heq]
    rfl

theorem C7_prefix_space_witness :
    ∃ r rs, splitRuns (("ab".data)) = r :: rs ∧
      byteLevelSplit ⟨["python".data], true, true, false⟩ ⟨5, 7, "ab".data⟩ =
        ⟨5, 5 + r.length, spaceMarker :: r⟩ ::
          (spansOfRuns r.length rs).map (fun s => translateSpan s 5) ∧
      (byteLevelSplit ⟨["python".data], true, true, false⟩ ⟨5, 7, "ab".data⟩).head?.map
        Span.start = some 5 :=
  C7_prefix_space ⟨["python".data], true, true, false⟩ ⟨5, 7, "ab".data⟩
    rfl (by decide) (by decide)

/-- Claim C10: the driver composition Sequence of the CodeLexer stage and
the ByteLevel stage applies the stages in list order: its output is
exactly the result of feeding every span produced by the CodeLexer stage
(recognized code blocks included) through the ByteLevel stage, and this
composition of two tiling stages still tiles the original input. -/
theorem C10_sequence_composition (text : List Char) :
    seqRun [codeLexerStage hybridConfig.languages, byteLevelStage hybridConfig] text =
      ((codeLexerStage hybridConfig.languages ⟨0, text.length, text⟩).map
        (byteLevelStage hybridConfig)).flatten ∧
    concatText (seqRun [codeLexerStage hybridConfig.languages,
      byteLevelStage hybridConfig] text) = text ∧
    chainedTo 0 text.length (seqRun [codeLexerStage hybridConfig.languages,
      byteLevelStage hybridConfig] text) = true := by
  have hseq : seqRun [codeLexerStage hybridConfig.languages, byteLevelStage hybridConfig]
      text =
      ((codeLexerStage hybridConfig.languages ⟨0, text.length, text⟩).map
        (byteLevelStage hybridConfig)).flatten := by
    simp [seqRun]
  have hwf0 : spanWF ⟨0, text.length, text⟩ = true := by
    simp [spanWF]
  obtain ⟨hc1, hch1, hwf1⟩ := codeLexerStage_tiles hybridConfig.languages hwf0
  obtain ⟨hc2, hch2⟩ := @spans_byteLevel_tiles hybridConfig rfl
    (codeLexerStage hybridConfig.languages ⟨0, text.length, text⟩) 0 text.length hch1 hwf1
  refine ⟨hseq, ?_, ?_⟩
  · rw [hseq, hc2]
    exact hc1
  · rw [hseq]
    exact hch2
